import Mathlib

/-!
# Verification of the dithercpp image library

Shallow embedding of the `nrv::image` buffer class (`src/image.hpp`), the
raster pipeline (`render_img` / `render_transform`), the error-diffusion
dithering routines (`src/dither.cpp` and the variants shipping the
minimized-average-error kernel), and the 8-bit codec boundary
(`image::image(path)` decode and `write_png` encode).

Modelling conventions, stated once:

* C++ `float` samples are modelled as exact rationals (`Q` below), i.e. the
  real-number semantics of the arithmetic.  The single exception is the codec
  round-trip development, where IEEE-754 binary32 round-to-nearest-even is
  modelled exactly (`round32`), because rounding is the substance of that
  claim.
* `Q` is a hand-rolled normalized fraction type (numerator `Int`, positive
  denominator `Nat`, reduced by `Nat.gcd`): every operation is
  kernel-computable, so concrete runs of the embedded code can be checked by
  `decide`.  Division by zero yields `0`, standing in for the C++ `inf`/`NaN`
  that a float division by zero would produce; the one claim this touches
  (the `normalise` guard) spells the convention out again at the theorem.
* The pixel buffer is a `List Q`.  The C++ class checks the pixel
  *coordinates* against `[0,width) x [0,height)` but never the raw sample
  index against the allocation, so – for buffers with fewer than 3
  channels – `get_pixel_rgb(a)`/`set_pixel` read and write raw indices past
  the allocation (undefined behaviour in C++).  The embedding totalizes
  those raw accesses with the same leniency the class applies to
  coordinates: a raw read past the buffer yields `0`, a raw write past the
  buffer is dropped (`List.set` out of range is a no-op).
* `std::int32_t` is modelled as `Int` (no image in scope approaches 2^31).
* The dithering lambdas return `void`, so overload resolution picks the
  read-only `render_set_fn_t` overload of `render_img`; all mutation happens
  through the captured `destination`.  The embedding therefore threads the
  destination image through a raster-order fold whose step is the lambda
  body.
-/

/-- Exact rational numbers with kernel-computable arithmetic.
Invariant (maintained by the smart constructor `Q.norm`, not enforced by the
type): `d > 0` and `Int.natAbs n` is coprime to `d`. -/
structure Q where
  n : Int
  d : Nat
deriving DecidableEq, Repr

/-- Normalize a fraction `n / d` (`d : Int`): fix the sign into the
numerator, divide by the gcd.  A zero denominator yields `0`, mirroring the
`q / 0 = 0` junk-value convention documented in the file header. -/
def Q.norm (n : Int) (d : Int) : Q :=
  if d = 0 then ⟨0, 1⟩
  else
    let n' : Int := if d < 0 then -n else n
    let dn : Nat := d.natAbs
    let g : Nat := Nat.gcd n'.natAbs dn
    ⟨n' / (g : Int), dn / g⟩

def Q.add (a b : Q) : Q := Q.norm (a.n * b.d + b.n * a.d) ((a.d : Int) * b.d)

def Q.sub (a b : Q) : Q := Q.norm (a.n * b.d - b.n * a.d) ((a.d : Int) * b.d)

def Q.mul (a b : Q) : Q := Q.norm (a.n * b.n) ((a.d : Int) * b.d)

def Q.div (a b : Q) : Q := Q.norm (a.n * b.d) ((a.d : Int) * b.n)

def Q.neg (a : Q) : Q := ⟨-a.n, a.d⟩

/-- Strict order by cross-multiplication (correct on normalized values,
whose denominators are positive). -/
def Q.lt (a b : Q) : Prop := a.n * b.d < b.n * a.d

def Q.le (a b : Q) : Prop := a.n * b.d ≤ b.n * a.d

instance : Add Q := ⟨Q.add⟩
instance : Sub Q := ⟨Q.sub⟩
instance : Mul Q := ⟨Q.mul⟩
instance : Div Q := ⟨Q.div⟩
instance : Neg Q := ⟨Q.neg⟩
instance : LT Q := ⟨Q.lt⟩
instance : LE Q := ⟨Q.le⟩
instance : OfNat Q m := ⟨⟨(m : Int), 1⟩⟩

instance (a b : Q) : Decidable (a < b) :=
  inferInstanceAs (Decidable (a.n * b.d < b.n * a.d))
instance (a b : Q) : Decidable (a ≤ b) :=
  inferInstanceAs (Decidable (a.n * b.d ≤ b.n * a.d))

/-- `std::max` on samples: `(a < b) ? b : a`. -/
def Q.qmax (a b : Q) : Q := if a < b then b else a

/-- `glm::vec3`. -/
structure Vec3 where
  r : Q
  g : Q
  b : Q
deriving DecidableEq, Repr

/-- `glm::vec4`. -/
structure Vec4 where
  r : Q
  g : Q
  b : Q
  a : Q
deriving DecidableEq, Repr

/-- Component-wise `glm::vec4` subtraction (`pixel - qp`). -/
def Vec4.vsub (u v : Vec4) : Vec4 := ⟨u.r - v.r, u.g - v.g, u.b - v.b, u.a - v.a⟩

/-- Component-wise `glm::vec4` addition (`p + ...`). -/
def Vec4.vadd (u v : Vec4) : Vec4 := ⟨u.r + v.r, u.g + v.g, u.b + v.b, u.a + v.a⟩

/-- `glm::vec4` times a scalar (`err * err_bias`). -/
def Vec4.vscale (u : Vec4) (s : Q) : Vec4 := ⟨u.r * s, u.g * s, u.b * s, u.a * s⟩

/-- The `nrv::image` data: `m_width`, `m_height`, `m_channels` metadata and
the owned float store `m_buffer` (`m_size = width*height*channels` is not a
separate field here; the buffer list carries its own length). -/
structure Image where
  width : Int
  height : Int
  channels : Int
  buffer : List Q
deriving DecidableEq, Repr

namespace Image

/-- The flat index `(y * m_channels) * m_width + (x * m_channels)` of the
first sample of pixel `(x, y)`. -/
def pixIndex (img : Image) (x y : Int) : Int :=
  (y * img.channels) * img.width + x * img.channels

/-- The bounds test every accessor performs:
`x < 0 || x > m_width - 1 || y < 0 || y > m_height - 1`. -/
def oob (img : Image) (x y : Int) : Prop :=
  x < 0 ∨ img.width - 1 < x ∨ y < 0 ∨ img.height - 1 < y

instance (img : Image) (x y : Int) : Decidable (img.oob x y) :=
  inferInstanceAs (Decidable (_ ∨ _ ∨ _ ∨ _))

/-- `image::set_pixel(x, y, glm::vec3 const&)`: guarded coordinate check,
then three raw sample stores. -/
def set_pixel_rgb (img : Image) (x y : Int) (color : Vec3) : Image :=
  if img.oob x y then img
  else
    let index := (img.pixIndex x y).toNat
    { img with
        buffer := ((img.buffer.set index color.r).set (index + 1) color.g).set
          (index + 2) color.b }

/-- `image::set_pixel(x, y, glm::vec4 const&)`: delegates the rgb part to
the `vec3` overload, then stores alpha only when the image has 4 channels. -/
def set_pixel (img : Image) (x y : Int) (color : Vec4) : Image :=
  if img.oob x y then img
  else
    let img' := img.set_pixel_rgb x y ⟨color.r, color.g, color.b⟩
    let index := (img.pixIndex x y).toNat
    if img.channels = 4 then
      { img' with buffer := img'.buffer.set (index + 3) color.a }
    else img'

/-- `image::get_pixel_rgb`: out-of-bounds coordinates yield `{0,0,0}`. -/
def get_pixel_rgb (img : Image) (x y : Int) : Vec3 :=
  if img.oob x y then ⟨0, 0, 0⟩
  else
    let index := (img.pixIndex x y).toNat
    ⟨img.buffer.getD index 0, img.buffer.getD (index + 1) 0,
      img.buffer.getD (index + 2) 0⟩

/-- `image::get_pixel_rgba`: out-of-bounds coordinates yield the
transparent-zero pixel `{0,0,0,0}`; a 3-channel image reads alpha `1.0`. -/
def get_pixel_rgba (img : Image) (x y : Int) : Vec4 :=
  if img.oob x y then ⟨0, 0, 0, 0⟩
  else
    let index := (img.pixIndex x y).toNat
    ⟨img.buffer.getD index 0, img.buffer.getD (index + 1) 0,
      img.buffer.getD (index + 2) 0,
      if img.channels = 4 then img.buffer.getD (index + 3) 0 else 1⟩

end Image

/-- The coordinate sequence of one raster scan: outer loop `i` (rows) over
`[0, h)`, inner loop `j` (columns) over `[0, w)`; elements are `(x, y)`
pairs, i.e. `(j, i)`. -/
def rasterCoords (w h : Int) : List (Int × Int) :=
  (List.range h.toNat).flatMap fun (i : Nat) =>
    (List.range w.toNat).map fun (j : Nat) => ((j : Int), (i : Int))

namespace Image

/-- `image::flipv`: for `i` in `[0, height/2)`, `j` in `[0, width)`, read
both row-mirrored pixels then write them swapped. -/
def flipv (img : Image) : Image :=
  ((List.range (img.height / 2).toNat).flatMap fun (i : Nat) =>
      (List.range img.width.toNat).map fun (j : Nat) => ((i : Int), (j : Int))).foldl
    (fun im ij =>
      let i := ij.1
      let j := ij.2
      let a := im.get_pixel_rgba j i
      let b := im.get_pixel_rgba j (im.height - 1 - i)
      let im1 := im.set_pixel j i b
      im1.set_pixel j (im1.height - 1 - i) a)
    img

/-- `image::fliph`: for `i` in `[0, height)`, `j` in `[0, width/2)`, read
both column-mirrored pixels then write them swapped. -/
def fliph (img : Image) : Image :=
  ((List.range img.height.toNat).flatMap fun (i : Nat) =>
      (List.range (img.width / 2).toNat).map fun (j : Nat) => ((i : Int), (j : Int))).foldl
    (fun im ij =>
      let i := ij.1
      let j := ij.2
      let a := im.get_pixel_rgba j i
      let b := im.get_pixel_rgba (im.width - 1 - j) i
      let im1 := im.set_pixel j i b
      im1.set_pixel (im1.width - 1 - j) i a)
    img

/-- `*std::max_element(m_buffer, m_buffer + m_size)`: the greatest sample.
On an empty buffer the C++ dereferences the end iterator (undefined
behaviour); the model then returns `0`, and no theorem below relies on the
empty case. -/
def bufMax (l : List Q) : Q := l.foldl Q.qmax (l.headD 0)

/-- `image::normalise`: divide every sample by the buffer-wide maximum.
Note the source has no guard whatsoever: when the maximum is `0` the
division is performed anyway (C++: `0/0 = NaN`, `x/0 = inf`; model: `0`
by the division convention in the header). -/
def normalise (img : Image) : Image :=
  { img with buffer := img.buffer.map fun v => v / bufMax img.buffer }

end Image

/-- One diffusion-kernel entry `(offset, weight)` as passed to
`update_pixel({dx, dy}, weight)`. -/
structure KEntry where
  dx : Int
  dy : Int
  weight : Q
deriving DecidableEq, Repr

/-- The Floyd–Steinberg kernel exactly as applied in `dither_floyd_steinberg`:
`{+1,0}:7/16, {-1,+1}:3/16, {0,+1}:5/16, {+1,+1}:1/16`. -/
def fs_kernel : List KEntry :=
  [⟨1, 0, ⟨7, 16⟩⟩, ⟨-1, 1, ⟨3, 16⟩⟩, ⟨0, 1, ⟨5, 16⟩⟩, ⟨1, 1, ⟨1, 16⟩⟩]

/-- The 12-tap minimized-average-error kernel exactly as applied in
`dither_minimized_average_error` (weights over 48ths). -/
def mae_kernel : List KEntry :=
  [⟨1, 0, ⟨7, 48⟩⟩, ⟨2, 0, ⟨5, 48⟩⟩,
   ⟨-2, 1, ⟨3, 48⟩⟩, ⟨-1, 1, ⟨5, 48⟩⟩, ⟨0, 1, ⟨7, 48⟩⟩, ⟨1, 1, ⟨5, 48⟩⟩, ⟨2, 1, ⟨3, 48⟩⟩,
   ⟨-2, 2, ⟨1, 48⟩⟩, ⟨-1, 2, ⟨3, 48⟩⟩, ⟨0, 2, ⟨5, 48⟩⟩, ⟨1, 2, ⟨3, 48⟩⟩, ⟨2, 2, ⟨1, 48⟩⟩]

/-- The `update_pixel` closure of the dithering lambdas: read the current
pixel at `pos + offset`, add `err * err_bias`, write back `{k.r, k.g, k.b,
1.0f}` (alpha forced to 1). -/
def update_pixel (dest : Image) (pos : Int × Int) (err : Vec4) (e : KEntry) : Image :=
  let p := dest.get_pixel_rgba (pos.1 + e.dx) (pos.2 + e.dy)
  let k := p.vadd (err.vscale e.weight)
  dest.set_pixel (pos.1 + e.dx) (pos.2 + e.dy) ⟨k.r, k.g, k.b, 1⟩

/-- The body of the dithering lambda at one raster position: read the
current (error-accumulated) pixel, quantise, write the quantised value in
place, then apply every kernel entry in order. -/
def dither_step (kernel : List KEntry) (quantise : Vec4 → Vec4) (dest : Image)
    (pos : Int × Int) : Image :=
  let pixel := dest.get_pixel_rgba pos.1 pos.2
  let qp := quantise pixel
  let err := pixel.vsub qp
  let dest1 := dest.set_pixel pos.1 pos.2 qp
  kernel.foldl (fun d e => update_pixel d pos err e) dest1

/-- `nrv::render_img(destination, <void lambda>)`: the lambda returns
`void`, so the `render_set_fn_t` (visit) overload runs — a raster scan that
calls the lambda at every coordinate; the buffer changes only through the
lambda's captured `destination`, threaded here as the fold state. -/
def render_img_dither (kernel : List KEntry) (quantise : Vec4 → Vec4)
    (dest : Image) : Image :=
  (rasterCoords dest.width dest.height).foldl (dither_step kernel quantise) dest

/-- `nrv::render_transform(source, destination, identity)` — the copy step
of `dither_floyd_steinberg` in `src/dither.cpp`: for every source
coordinate, `destination.set_pixel(j, i, source.get_pixel_rgba(j, i))`. -/
def render_transform_copy (source output : Image) : Image :=
  (rasterCoords source.width source.height).foldl
    (fun out c => out.set_pixel c.1 c.2 (source.get_pixel_rgba c.1 c.2)) output

/-- `dither_floyd_steinberg` as in `src/dither.cpp`: copy `source` into
`destination` via the identity `render_transform`, then run the
error-diffusion scan with the Floyd–Steinberg kernel. -/
def dither_floyd_steinberg (source destination : Image) (quantise : Vec4 → Vec4) :
    Image :=
  render_img_dither fs_kernel quantise (render_transform_copy source destination)

/-- `std::memcpy(destination.buffer(), source.buffer(), source.size() *
sizeof(float))`: the first `source.size()` samples of the destination store
are replaced by the source samples. -/
def memcpyBuffer (src dst : List Q) : List Q := src ++ dst.drop src.length

/-- `dither_floyd_steinberg` as in the `memcpy` variant of the source
(the file also shipping `dither_minimized_average_error`). -/
def dither_floyd_steinberg_mc (source destination : Image) (quantise : Vec4 → Vec4) :
    Image :=
  render_img_dither fs_kernel quantise
    { destination with buffer := memcpyBuffer source.buffer destination.buffer }

/-- `dither_minimized_average_error`: memcpy copy, then the scan with the
12-tap kernel. -/
def dither_minimized_average_error (source out : Image) (quantise : Vec4 → Vec4) :
    Image :=
  render_img_dither mae_kernel quantise
    { out with buffer := memcpyBuffer source.buffer out.buffer }

/-- The two by-reference parameters of a dithering call, as one record:
`source` is taken by `const&`, `destination` by mutable reference.  The
`_st` functions below return the final value of both, embedding the C++
call as a state transformer. -/
structure DitherState where
  source : Image
  destination : Image
deriving DecidableEq, Repr

/-- State-transformer view of `dither_floyd_steinberg` (memcpy variant):
the memcpy reads `source.buffer()` and writes `destination.buffer()`; the
scan reads and writes `destination` only. -/
def dither_floyd_steinberg_st (st : DitherState) (quantise : Vec4 → Vec4) :
    DitherState :=
  ⟨st.source, dither_floyd_steinberg_mc st.source st.destination quantise⟩

/-- State-transformer view of `dither_minimized_average_error`. -/
def dither_minimized_average_error_st (st : DitherState) (quantise : Vec4 → Vec4) :
    DitherState :=
  ⟨st.source, dither_minimized_average_error st.source st.destination quantise⟩

/-- The 1-bit greyscale threshold quantiser from `main`:
`in.r < 0.5f ? glm::vec4{0.0f} : glm::vec4{1.0f}`. -/
def quantise_greyscale_1bit (p : Vec4) : Vec4 :=
  if p.r < ⟨1, 2⟩ then ⟨0, 0, 0, 0⟩ else ⟨1, 1, 1, 1⟩

/-- The Floyd–Steinberg kernel as enumerated by the specification:
offsets `{(+1,0):7/16, (−1,+1):3/16, (0,+1):5/16, (+1,+1):1/16}`
(entries `(dx, dy, weight)`). -/
def fs_offsets_spec : List (Int × Int × Q) :=
  [(1, 0, ⟨7, 16⟩), (-1, 1, ⟨3, 16⟩), (0, 1, ⟨5, 16⟩), (1, 1, ⟨1, 16⟩)]

/-- The per-coordinate step exactly as the specification words it: read the
current destination pixel `p` (reflecting error already diffused into it),
compute `q = quantise(p)` and `err = p − q` component-wise on RGB only,
write `q` at `(x,y)`, then for each of the four kernel entries read the
current pixel at `(x+dx, y+dy)`, add `err × weight` component-wise, and
write the result back with alpha forced to `1.0`. -/
def fs_step_spec (quantise : Vec4 → Vec4) (dest : Image) (pos : Int × Int) : Image :=
  let p := dest.get_pixel_rgba pos.1 pos.2
  let q := quantise p
  let errR := p.r - q.r
  let errG := p.g - q.g
  let errB := p.b - q.b
  let d1 := dest.set_pixel pos.1 pos.2 q
  fs_offsets_spec.foldl
    (fun d ow =>
      let cur := d.get_pixel_rgba (pos.1 + ow.1) (pos.2 + ow.2.1)
      d.set_pixel (pos.1 + ow.1) (pos.2 + ow.2.1)
        ⟨cur.r + errR * ow.2.2, cur.g + errG * ow.2.2, cur.b + errB * ow.2.2, 1⟩)
    d1

/-- The whole algorithm as the specification words it: with the destination
pre-initialized as a copy of the source, scan the destination in raster
order applying `fs_step_spec` at every coordinate. -/
def dither_floyd_steinberg_spec (source : Image) (quantise : Vec4 → Vec4) : Image :=
  (rasterCoords source.width source.height).foldl (fs_step_spec quantise) source

/-- A kernel entry targets a coordinate strictly later in raster order:
either a strictly lower row, or the same row strictly to the right. -/
def entryAhead (e : KEntry) : Prop := 0 < e.dy ∨ (e.dy = 0 ∧ 0 < e.dx)

instance (e : KEntry) : Decidable (entryAhead e) :=
  inferInstanceAs (Decidable (_ ∨ _))

/-- The `channels` samples stored for pixel `(x, y)`: the buffer content on
`[pixIndex, pixIndex + channels)`.  This is the storage footprint of the
pixel, the thing a later scan step must not touch. -/
def pixelStore (img : Image) (x y : Int) : List Q :=
  (List.range img.channels.toNat).map fun k =>
    img.buffer.getD ((img.pixIndex x y).toNat + k) 0

/-- The buffer length matches the `m_size = width*height*channels`
allocation. -/
def wellFormed (img : Image) : Prop :=
  img.buffer.length = (img.width * img.height * img.channels).toNat

/-! ## The codec boundary, with exact binary32 rounding -/

/-- Number of significant bits of `m` (zero for `m = 0`), with explicit
fuel so that the kernel can evaluate it. -/
def nbits : Nat → Nat → Nat
  | 0, _ => 0
  | f + 1, m => if m = 0 then 0 else 1 + nbits f (m / 2)

/-- `⌊log₂ (a/b)⌋` for positive naturals `a`, `b` (values below 2^64). -/
def floorLog2Q (a b : Nat) : Int :=
  if b ≤ a then (nbits 64 (a / b) : Int) - 1
  else
    let k0 := nbits 64 b - nbits 64 a
    let k := (if b ≤ a * 2 ^ k0 then k0 else k0 + 1 : Nat)
    Int.neg (k : Int)

/-- Round a rational to the nearest IEEE-754 binary32 value, ties to even:
the unique float `m·2^(e−23)` with 24-bit significand nearest to `q`.
Exponent overflow and subnormals are outside every use below (all inputs
lie well inside the normal range) and are not modelled. -/
def round32 (q : Q) : Q :=
  if q.n = 0 then 0
  else
    let a := q.n.natAbs
    let b := q.d
    let e := floorLog2Q a b
    let nm : Nat := if e ≤ 23 then a * 2 ^ (23 - e).toNat else a
    let dn : Nat := if e ≤ 23 then b else b * 2 ^ (e - 23).toNat
    let n0 := nm / dn
    let r := nm % dn
    let m : Nat := if dn < 2 * r ∨ (2 * r = dn ∧ n0 % 2 = 1) then n0 + 1 else n0
    let mag : Q :=
      if e ≤ 23 then Q.norm (m : Int) ((2 : Int) ^ (23 - e).toNat)
      else Q.norm ((m : Int) * (2 : Int) ^ (e - 23).toNat) 1
    if q.n < 0 then Q.neg mag else mag

/-- The decode half of the codec (`image::image(path)`): each 8-bit sample
becomes `static_cast<float>(pixel) / 255.0f` — the byte is exact in float
and the division rounds once. -/
def decode_sample (byte : Nat) : Q := round32 (Q.div ⟨(byte : Int), 1⟩ ⟨255, 1⟩)

/-- The encode half (`write_png`): each sample becomes
`std::uint8_t(std::clamp(pixel * 255.0f, 0.0f, 255.0f))` — one rounded
multiplication, an exact clamp, then truncation toward zero. -/
def encode_sample (v : Q) : Nat :=
  let g := round32 (v * ⟨255, 1⟩)
  let c := if g < 0 then 0 else if (⟨255, 1⟩ : Q) < g then ⟨255, 1⟩ else g
  c.n.toNat / c.d

/-- Decoding a whole byte buffer (the `std::transform` over `data`). -/
def decode_bytes (l : List Nat) : List Q := l.map decode_sample

/-- Encoding a whole sample buffer (the `std::transform` in `write_png`). -/
def encode_bytes (l : List Q) : List Nat := l.map encode_sample

/-- Sum of a sample list (`Q.add` fold). -/
def qsum (l : List Q) : Q := l.foldl Q.add 0

/-- The buffer-wide sum of `destination − source`, sample by sample, taken
on the raw (unclamped) float stores. -/
def bufferDiffSum (dest src : Image) : Q :=
  qsum (List.zipWith Q.sub dest.buffer src.buffer)

/-! ## List-level helper lemmas -/

theorem qlist_set_getD_self (l : List Q) (i : Nat) : l.set i (l.getD i 0) = l := by
  induction l generalizing i with
  | nil => rfl
  | cons a t ih =>
    cases i with
    | zero => rfl
    | succ n =>
      simp only [List.getD_cons_succ, List.set_cons_succ, List.cons.injEq, true_and]
      exact ih n

theorem qlist_getD_set_ne (l : List Q) (i j : Nat) (v : Q) (h : i ≠ j) :
    (l.set i v).getD j 0 = l.getD j 0 := by
  simp [List.getD, List.getElem?_set_ne h]

theorem qlist_getD_set_self (l : List Q) (i : Nat) (v : Q) (h : i < l.length) :
    (l.set i v).getD i 0 = v := by
  simp [List.getD, List.getElem?_set_self, h]

/-- A predicate preserved by every step of a fold holds of the result. -/
theorem foldl_pred_invariant {α σ : Type _} (f : σ → α → σ) (p : σ → Prop) :
    ∀ (l : List α) (s : σ), (∀ t a, p t → p (f t a)) → p s → p (l.foldl f s)
  | [], _, _, hs => hs
  | a :: t, s, h, hs => foldl_pred_invariant f p t (f s a) h (h s a hs)

/-! ## Metadata preservation by the mutating accessors -/

theorem width_set_pixel (img : Image) (x y : Int) (c : Vec4) :
    (img.set_pixel x y c).width = img.width := by
  unfold Image.set_pixel Image.set_pixel_rgb
  split_ifs <;> rfl

theorem height_set_pixel (img : Image) (x y : Int) (c : Vec4) :
    (img.set_pixel x y c).height = img.height := by
  unfold Image.set_pixel Image.set_pixel_rgb
  split_ifs <;> rfl

theorem channels_set_pixel (img : Image) (x y : Int) (c : Vec4) :
    (img.set_pixel x y c).channels = img.channels := by
  unfold Image.set_pixel Image.set_pixel_rgb
  split_ifs <;> rfl

theorem length_set_pixel (img : Image) (x y : Int) (c : Vec4) :
    (img.set_pixel x y c).buffer.length = img.buffer.length := by
  unfold Image.set_pixel Image.set_pixel_rgb
  split_ifs <;> simp

theorem pixIndex_set_pixel (img : Image) (x y : Int) (c : Vec4) (x2 y2 : Int) :
    (img.set_pixel x y c).pixIndex x2 y2 = img.pixIndex x2 y2 := by
  unfold Image.pixIndex
  rw [width_set_pixel, channels_set_pixel]

theorem oob_set_pixel (img : Image) (x y : Int) (c : Vec4) (x2 y2 : Int) :
    (img.set_pixel x y c).oob x2 y2 ↔ img.oob x2 y2 := by
  unfold Image.oob
  rw [width_set_pixel, height_set_pixel]

/-- Writing back exactly the pixel just read changes nothing (each raw
store rewrites the sample it read, or falls outside the buffer where both
the read defaulted and the store is dropped). -/
theorem set_pixel_get_self (img : Image) (x y : Int) :
    img.set_pixel x y (img.get_pixel_rgba x y) = img := by
  by_cases h : img.oob x y
  · simp [Image.set_pixel, h]
  · simp only [Image.set_pixel, Image.set_pixel_rgb, Image.get_pixel_rgba, if_neg h]
    by_cases h4 : img.channels = 4
    · simp only [if_pos h4]
      rw [qlist_set_getD_self, qlist_set_getD_self, qlist_set_getD_self,
        qlist_set_getD_self]
    · simp only [if_neg h4]
      rw [qlist_set_getD_self, qlist_set_getD_self, qlist_set_getD_self]

/-- The identity `render_transform` from a buffer onto itself is the
identity. -/
theorem render_transform_copy_self (s : Image) : render_transform_copy s s = s :=
  foldl_pred_invariant _ (fun t => t = s) _ s
    (fun t a ht => by rw [ht]; exact set_pixel_get_self s a.1 a.2) rfl

/-! ## Claim theorems (part 1) -/

/-- C1: for every source buffer, destination buffer of identical dimensions
pre-initialized as a copy of source, and quantiser function,
`dither_floyd_steinberg` scans the destination in raster order and at each
coordinate reads the current destination pixel `p` (reflecting error
already diffused into it, because diffusion writes accumulate into the same
buffer being scanned), computes `q = quantise(p)` and `err = p − q` on RGB,
writes `q`, then for each of the four Floyd–Steinberg kernel entries reads
the current pixel at the offset target, adds `err × weight` component-wise,
and writes the result back with alpha forced to `1.0` on those diffusion
writes.  Stated as a refinement: the source embedding equals the algorithm
transcribed from the specification's wording (`dither_floyd_steinberg_spec`). -/
theorem dither_fs_follows_spec_scan (source destination : Image)
    (quantise : Vec4 → Vec4) (h : destination = source) :
    dither_floyd_steinberg source destination quantise
      = dither_floyd_steinberg_spec source quantise := by
  subst h
  unfold dither_floyd_steinberg dither_floyd_steinberg_spec render_img_dither
  rw [render_transform_copy_self]
  have hstep : dither_step fs_kernel quantise = fs_step_spec quantise := by
    funext d pos
    rfl
  rw [hstep]

/-- Witness for C1 at a concrete 2×2 greyscale image. -/
theorem dither_fs_follows_spec_scan_witness :
    dither_floyd_steinberg ⟨2, 2, 1, [⟨3, 5⟩, ⟨2, 5⟩, ⟨3, 5⟩, ⟨2, 5⟩]⟩
        ⟨2, 2, 1, [⟨3, 5⟩, ⟨2, 5⟩, ⟨3, 5⟩, ⟨2, 5⟩]⟩ quantise_greyscale_1bit
      = dither_floyd_steinberg_spec ⟨2, 2, 1, [⟨3, 5⟩, ⟨2, 5⟩, ⟨3, 5⟩, ⟨2, 5⟩]⟩
          quantise_greyscale_1bit :=
  dither_fs_follows_spec_scan _ _ _ rfl

/-- C3: for every coordinate outside `[0,width) × [0,height)`, a pixel get
returns the all-zero (fully transparent) pixel and does not fail, and a
pixel set is a silent no-op leaving the buffer unchanged. -/
theorem pixel_access_bounds_leniency (img : Image) (x y : Int)
    (h : x < 0 ∨ img.width ≤ x ∨ y < 0 ∨ img.height ≤ y) :
    img.get_pixel_rgb x y = ⟨0, 0, 0⟩ ∧ img.get_pixel_rgba x y = ⟨0, 0, 0, 0⟩ ∧
      (∀ c3 : Vec3, img.set_pixel_rgb x y c3 = img) ∧
      (∀ c4 : Vec4, img.set_pixel x y c4 = img) := by
  have hoob : img.oob x y := by
    unfold Image.oob
    omega
  refine ⟨?_, ?_, ?_, ?_⟩ <;> intros <;>
    simp [Image.get_pixel_rgb, Image.get_pixel_rgba, Image.set_pixel_rgb,
      Image.set_pixel, hoob]

/-- Witness for C3: coordinate `(-1, 0)` on a 1×1 image. -/
theorem pixel_access_bounds_leniency_witness :
    Image.get_pixel_rgb ⟨1, 1, 3, [0, 0, 0]⟩ (-1) 0 = ⟨0, 0, 0⟩ ∧
      Image.get_pixel_rgba ⟨1, 1, 3, [0, 0, 0]⟩ (-1) 0 = ⟨0, 0, 0, 0⟩ ∧
      (∀ c3 : Vec3, Image.set_pixel_rgb ⟨1, 1, 3, [0, 0, 0]⟩ (-1) 0 c3
        = ⟨1, 1, 3, [0, 0, 0]⟩) ∧
      (∀ c4 : Vec4, Image.set_pixel ⟨1, 1, 3, [0, 0, 0]⟩ (-1) 0 c4
        = ⟨1, 1, 3, [0, 0, 0]⟩) :=
  pixel_access_bounds_leniency _ _ _ (Or.inl (by decide))

/-- C4: the Floyd–Steinberg kernel's four weights (7/16, 3/16, 5/16, 1/16)
sum to 1 (= 16/16), and the minimized-average-error kernel's twelve
weights over 48ths sum to 1 (= 48/48). -/
theorem kernel_weights_sum_to_one :
    qsum (fs_kernel.map KEntry.weight) = 1 ∧
      qsum (mae_kernel.map KEntry.weight) = 1 := by decide

/-- C7: `normalise` divides every sample of the buffer by the buffer-wide
maximum sample value; on `[0.5, 1.0, 0.25]` it leaves the buffer unchanged
(maximum already 1.0), and on `[0.5, 2.0]` it produces `[0.25, 1.0]`. -/
theorem normalise_divides_by_max :
    (∀ (img : Image) (i : Nat), i < img.buffer.length →
        (Image.normalise img).buffer.getD i 0
          = img.buffer.getD i 0 / Image.bufMax img.buffer) ∧
      Image.normalise ⟨3, 1, 1, [⟨1, 2⟩, 1, ⟨1, 4⟩]⟩
        = ⟨3, 1, 1, [⟨1, 2⟩, 1, ⟨1, 4⟩]⟩ ∧
      Image.normalise ⟨2, 1, 1, [⟨1, 2⟩, 2]⟩ = ⟨2, 1, 1, [⟨1, 4⟩, 1]⟩ := by
  refine ⟨?_, by decide, by decide⟩
  intro img i hi
  unfold Image.normalise
  simp [List.getD, List.getElem?_map, List.getElem?_eq_getElem hi]

/-- Witness for C7's quantified part at index 0 of `[0.5, 2.0]`. -/
theorem normalise_divides_by_max_witness :
    (Image.normalise ⟨2, 1, 1, [⟨1, 2⟩, 2]⟩).buffer.getD 0 0
      = (⟨2, 1, 1, [⟨1, 2⟩, 2]⟩ : Image).buffer.getD 0 0
          / Image.bufMax (⟨2, 1, 1, [⟨1, 2⟩, 2]⟩ : Image).buffer :=
  normalise_divides_by_max.1 _ 0 (by decide)

set_option maxRecDepth 1000000

/-- C8, counterexample: the claim says `normalise` fails with a
`DivideByZero` error when the buffer-wide maximum is 0 and that the
division is explicitly guarded.  The source has no guard and no error path
at all (see `Image.normalise`): on the all-zero buffer `[0, 0]` — whose
maximum is 0 — it performs the division by zero on every sample and
returns a buffer (C++ floats would hold `0.0f/0.0f = NaN`; the model's
division-by-zero convention yields `0`). -/
theorem normalise_zero_max_returns :
    Image.bufMax (⟨2, 1, 1, [0, 0]⟩ : Image).buffer = 0 ∧
      Image.normalise ⟨2, 1, 1, [0, 0]⟩ = ⟨2, 1, 1, [0, 0]⟩ := by decide

/-- C8, amended: `normalise` does not guard the division.  When the
buffer-wide maximum sample is 0 it divides every sample by zero and returns
a buffer of unchanged length instead of failing (in C++ the `NaN`/`Inf`
results propagate into the buffer; under the model's division convention
the quotients are 0). -/
theorem normalise_unguarded_division (img : Image)
    (h : Image.bufMax img.buffer = 0) :
    (Image.normalise img).buffer.length = img.buffer.length ∧
      (Image.normalise img).buffer = img.buffer.map fun v => v / 0 := by
  unfold Image.normalise
  rw [h]
  simp

/-- Witness for the amended C8 at the all-zero 2-sample buffer. -/
theorem normalise_unguarded_division_witness :
    (Image.normalise ⟨2, 1, 1, [0, 0]⟩).buffer.length
        = (⟨2, 1, 1, [0, 0]⟩ : Image).buffer.length ∧
      (Image.normalise ⟨2, 1, 1, [0, 0]⟩).buffer
        = (⟨2, 1, 1, [0, 0]⟩ : Image).buffer.map fun v => v / 0 :=
  normalise_unguarded_division _ (by decide)

/-- C9, counterexample: the claim asserts that for a 4×4 single-channel
constant-grey source dithered with the Floyd–Steinberg kernel and the
threshold-at-0.5 quantiser, the sum over the buffer of
`destination − source` (before any clamp) is zero.  At constant grey `2/5`
it is not: it equals `-32/5` for the literal single-channel input (where
the 3-sample-wide accessors also overlap adjacent pixels), and `-6/5` for
the same grey as a clean 3-channel image — the error diffused past the
right and bottom borders is dropped, so the sum cannot vanish. -/
theorem dither_error_sum_nonzero :
    bufferDiffSum
        (dither_floyd_steinberg ⟨4, 4, 1, List.replicate 16 ⟨2, 5⟩⟩
          ⟨4, 4, 1, List.replicate 16 ⟨2, 5⟩⟩ quantise_greyscale_1bit)
        ⟨4, 4, 1, List.replicate 16 ⟨2, 5⟩⟩ ≠ 0 ∧
      bufferDiffSum
        (dither_floyd_steinberg ⟨4, 4, 3, List.replicate 48 ⟨2, 5⟩⟩
          ⟨4, 4, 3, List.replicate 48 ⟨2, 5⟩⟩ quantise_greyscale_1bit)
        ⟨4, 4, 3, List.replicate 48 ⟨2, 5⟩⟩ ≠ 0 := by decide

/-- C9, amended: the buffer-wide sum of `destination − source` equals the
(generally nonzero) negated quantisation error dropped at the image's
borders; on the 4×4 constant-grey-`2/5` image with the Floyd–Steinberg
kernel and threshold quantiser it equals `-32/5` (single-channel literal
input) respectively `-6/5` (3-channel variant). -/
theorem dither_error_sum_value :
    bufferDiffSum
        (dither_floyd_steinberg ⟨4, 4, 1, List.replicate 16 ⟨2, 5⟩⟩
          ⟨4, 4, 1, List.replicate 16 ⟨2, 5⟩⟩ quantise_greyscale_1bit)
        ⟨4, 4, 1, List.replicate 16 ⟨2, 5⟩⟩ = ⟨-32, 5⟩ ∧
      bufferDiffSum
        (dither_floyd_steinberg ⟨4, 4, 3, List.replicate 48 ⟨2, 5⟩⟩
          ⟨4, 4, 3, List.replicate 48 ⟨2, 5⟩⟩ quantise_greyscale_1bit)
        ⟨4, 4, 3, List.replicate 48 ⟨2, 5⟩⟩ = ⟨-6, 5⟩ := by decide

/-- C10: the dithering routines read the source only through its buffer
content (to initialize the destination copy) and mutate only the
destination: the source component of the call state is returned unchanged,
and the resulting destination depends on nothing of the source beyond its
buffer. -/
theorem dither_preserves_source (st st' : DitherState) (quantise : Vec4 → Vec4)
    (hbuf : st'.source.buffer = st.source.buffer)
    (hdest : st'.destination = st.destination) :
    (dither_floyd_steinberg_st st quantise).source = st.source ∧
      (dither_minimized_average_error_st st quantise).source = st.source ∧
      (dither_floyd_steinberg_st st' quantise).destination
        = (dither_floyd_steinberg_st st quantise).destination ∧
      (dither_minimized_average_error_st st' quantise).destination
        = (dither_minimized_average_error_st st quantise).destination := by
  refine ⟨rfl, rfl, ?_, ?_⟩ <;>
    simp [dither_floyd_steinberg_st, dither_minimized_average_error_st,
      dither_floyd_steinberg_mc, dither_minimized_average_error, hbuf, hdest]

/-- Witness for C10 on a concrete 1×1 state pair. -/
theorem dither_preserves_source_witness :
    (dither_floyd_steinberg_st ⟨⟨1, 1, 1, [⟨1, 2⟩]⟩, ⟨1, 1, 1, [0]⟩⟩
        quantise_greyscale_1bit).source = ⟨1, 1, 1, [⟨1, 2⟩]⟩ ∧
      (dither_minimized_average_error_st ⟨⟨1, 1, 1, [⟨1, 2⟩]⟩, ⟨1, 1, 1, [0]⟩⟩
        quantise_greyscale_1bit).source = ⟨1, 1, 1, [⟨1, 2⟩]⟩ ∧
      (dither_floyd_steinberg_st ⟨⟨1, 1, 1, [⟨1, 2⟩]⟩, ⟨1, 1, 1, [0]⟩⟩
          quantise_greyscale_1bit).destination
        = (dither_floyd_steinberg_st ⟨⟨1, 1, 1, [⟨1, 2⟩]⟩, ⟨1, 1, 1, [0]⟩⟩
          quantise_greyscale_1bit).destination ∧
      (dither_minimized_average_error_st ⟨⟨1, 1, 1, [⟨1, 2⟩]⟩, ⟨1, 1, 1, [0]⟩⟩
          quantise_greyscale_1bit).destination
        = (dither_minimized_average_error_st ⟨⟨1, 1, 1, [⟨1, 2⟩]⟩, ⟨1, 1, 1, [0]⟩⟩
          quantise_greyscale_1bit).destination :=
  dither_preserves_source _ _ _ rfl rfl

/-- C5: for any valid 8-bit byte buffer, encoding the decoded buffer
reproduces the original bytes exactly — decode divides each sample by
255.0f (one binary32 rounding), encode multiplies by 255.0f (one binary32
rounding), clamps to [0,255] and truncates.  Proved from the exact
round-to-nearest-even model by checking all 256 sample values. -/
theorem codec_roundtrip (l : List Nat) (h : ∀ b ∈ l, b < 256) :
    encode_bytes (decode_bytes l) = l := by
  unfold encode_bytes decode_bytes
  rw [List.map_map]
  have hb : ∀ b : Fin 256, encode_sample (decode_sample b.val) = b.val := by decide
  calc l.map (encode_sample ∘ decode_sample)
      = l.map id := List.map_congr_left fun b hbl => hb ⟨b, h b hbl⟩
    _ = l := List.map_id l

/-- Witness for C5 on a concrete RGBA-style byte buffer. -/
theorem codec_roundtrip_witness :
    encode_bytes (decode_bytes [0, 17, 127, 128, 254, 255]) = [0, 17, 127, 128, 254, 255] :=
  codec_roundtrip _ (by decide)

/-! ## Causality of the diffusion scan (C2) -/

/-- A membership-restricted fold invariant. -/
theorem foldl_pred_invariant_mem {α σ : Type _} (f : σ → α → σ) (p : σ → Prop) :
    ∀ (l : List α) (s : σ), (∀ t a, a ∈ l → p t → p (f t a)) → p s → p (l.foldl f s)
  | [], _, _, hs => hs
  | a :: t, s, h, hs =>
    foldl_pred_invariant_mem f p t (f s a)
      (fun t' b hb => h t' b (List.mem_cons_of_mem a hb))
      (h s a (List.mem_cons_self a t) hs)

/-- Every raw store of a `set_pixel` call lands at or above the pixel's
first sample index, so samples strictly below it are untouched. -/
theorem buffer_set_pixel_getD_lt (img : Image) (x2 y2 : Int) (v : Vec4) (m : Nat)
    (hm : m < (img.pixIndex x2 y2).toNat) :
    (img.set_pixel x2 y2 v).buffer.getD m 0 = img.buffer.getD m 0 := by
  unfold Image.set_pixel Image.set_pixel_rgb
  split_ifs with h h4
  · rfl
  · simp only
    rw [qlist_getD_set_ne _ _ _ _ (by omega), qlist_getD_set_ne _ _ _ _ (by omega),
      qlist_getD_set_ne _ _ _ _ (by omega), qlist_getD_set_ne _ _ _ _ (by omega)]
  · simp only
    rw [qlist_getD_set_ne _ _ _ _ (by omega), qlist_getD_set_ne _ _ _ _ (by omega),
      qlist_getD_set_ne _ _ _ _ (by omega)]

/-- Raster-order gap: a pixel strictly later in raster order starts at
least one full pixel (`channels` samples) beyond an earlier one. -/
theorem pixIndex_gap (img : Image) (x y x2 y2 : Int) (hc : 1 ≤ img.channels)
    (hx : 0 ≤ x) (hxw : x < img.width) (hy : 0 ≤ y)
    (hx2 : 0 ≤ x2) (hy2 : 0 ≤ y2)
    (hlt : y < y2 ∨ (y = y2 ∧ x < x2)) :
    img.pixIndex x y + img.channels ≤ img.pixIndex x2 y2 := by
  unfold Image.pixIndex
  have hw : (0 : Int) < img.width := by omega
  have key : y * img.width + x + 1 ≤ y2 * img.width + x2 := by
    rcases hlt with h | ⟨he, hx'⟩
    · have h1 : (y + 1) * img.width ≤ y2 * img.width :=
        mul_le_mul_of_nonneg_right (by omega) (le_of_lt hw)
      rw [add_mul, one_mul] at h1
      linarith
    · subst he
      linarith
  have h2 : img.channels * (y * img.width + x + 1)
      ≤ img.channels * (y2 * img.width + x2) :=
    mul_le_mul_of_nonneg_left key (by omega)
  nlinarith [h2]

/-- A `set_pixel` whose target is raster-later than `(x, y)` leaves the
stored samples of `(x, y)` unchanged. -/
theorem pixelStore_set_pixel_ahead (img : Image) (x y x2 y2 : Int) (v : Vec4)
    (hc : 1 ≤ img.channels) (hx : 0 ≤ x) (hxw : x < img.width) (hy : 0 ≤ y)
    (hahead : ¬img.oob x2 y2 → (y < y2 ∨ (y = y2 ∧ x < x2))) :
    pixelStore (img.set_pixel x2 y2 v) x y = pixelStore img x y := by
  by_cases h2 : img.oob x2 y2
  · unfold Image.set_pixel
    rw [if_pos h2]
  · have hb : 0 ≤ x2 ∧ x2 < img.width ∧ 0 ≤ y2 := by
      unfold Image.oob at h2
      omega
    have hgap := pixIndex_gap img x y x2 y2 hc hx hxw hy hb.1 hb.2.2 (hahead h2)
    have h0 : 0 ≤ img.pixIndex x y := by
      unfold Image.pixIndex
      have hcn : (0 : Int) ≤ img.channels := by omega
      have hwn : (0 : Int) ≤ img.width := by omega
      exact add_nonneg (mul_nonneg (mul_nonneg hy hcn) hwn) (mul_nonneg hx hcn)
    unfold pixelStore
    rw [channels_set_pixel, pixIndex_set_pixel]
    apply List.map_congr_left
    intro k hk
    have hk' : k < img.channels.toNat := List.mem_range.mp hk
    apply buffer_set_pixel_getD_lt
    omega

/-- Unfolding equation for `dither_step` (definitional). -/
theorem dither_step_eq (kernel : List KEntry) (quantise : Vec4 → Vec4)
    (dest : Image) (pos : Int × Int) :
    dither_step kernel quantise dest pos
      = kernel.foldl
          (fun d e =>
            update_pixel d pos
              ((dest.get_pixel_rgba pos.1 pos.2).vsub
                (quantise (dest.get_pixel_rgba pos.1 pos.2)))
              e)
          (dest.set_pixel pos.1 pos.2 (quantise (dest.get_pixel_rgba pos.1 pos.2))) :=
  rfl

/-- A whole dither step at a raster-later coordinate leaves the stored
samples of `(x, y)` unchanged, provided every kernel entry points strictly
ahead in raster order. -/
theorem pixelStore_dither_step (kernel : List KEntry)
    (hker : ∀ e ∈ kernel, entryAhead e) (quantise : Vec4 → Vec4) (img : Image)
    (x y x2 y2 : Int) (hc : 1 ≤ img.channels) (hx : 0 ≤ x) (hxw : x < img.width)
    (hy : 0 ≤ y) (hlt : y < y2 ∨ (y = y2 ∧ x < x2)) :
    pixelStore (dither_step kernel quantise img (x2, y2)) x y
      = pixelStore img x y := by
  rw [dither_step_eq]
  have hinv := foldl_pred_invariant_mem
    (fun d e =>
      update_pixel d ((x2 : Int), (y2 : Int))
        ((img.get_pixel_rgba x2 y2).vsub (quantise (img.get_pixel_rgba x2 y2))) e)
    (fun d => d.width = img.width ∧ d.height = img.height ∧
      d.channels = img.channels ∧ pixelStore d x y = pixelStore img x y)
    kernel
    (img.set_pixel x2 y2 (quantise (img.get_pixel_rgba x2 y2)))
    ?_ ?_
  · exact hinv.2.2.2
  · intro d e he hp
    unfold update_pixel
    refine ⟨by rw [width_set_pixel]; exact hp.1, by rw [height_set_pixel]; exact hp.2.1,
      by rw [channels_set_pixel]; exact hp.2.2.1, ?_⟩
    rw [← hp.2.2.2]
    apply pixelStore_set_pixel_ahead
    · rw [hp.2.2.1]; exact hc
    · exact hx
    · rw [hp.1]; exact hxw
    · exact hy
    · intro hno
      have hbounds : 0 ≤ x2 + e.dx ∧ x2 + e.dx < d.width ∧ 0 ≤ y2 + e.dy := by
        unfold Image.oob at hno
        omega
      rcases hker e he with hdy | ⟨hdy0, hdx⟩
      · left
        rcases hlt with h' | ⟨he', _⟩ <;> omega
      · rcases hlt with h' | ⟨he', hx'⟩
        · left; omega
        · right; exact ⟨by omega, by omega⟩
  · refine ⟨width_set_pixel .., height_set_pixel .., channels_set_pixel .., ?_⟩
    exact pixelStore_set_pixel_ahead img x y x2 y2 _ hc hx hxw hy fun _ => hlt

/-- C2: for both shipped kernels every diffusion offset targets a
coordinate strictly later in raster order (next rows, or same row to the
right), and consequently a scan step at a raster-later coordinate never
modifies the stored samples of a pixel already quantised and written:
its value can only receive diffusion contributions before its own turn. -/
theorem dither_kernels_causal :
    ((∀ e ∈ fs_kernel, entryAhead e) ∧ ∀ e ∈ mae_kernel, entryAhead e) ∧
      ∀ kernel : List KEntry, kernel = fs_kernel ∨ kernel = mae_kernel →
        ∀ (img : Image) (quantise : Vec4 → Vec4) (x y x2 y2 : Int),
          1 ≤ img.channels → 0 ≤ x → x < img.width → 0 ≤ y →
          (y < y2 ∨ (y = y2 ∧ x < x2)) →
          pixelStore (dither_step kernel quantise img (x2, y2)) x y
            = pixelStore img x y := by
  refine ⟨⟨by decide, by decide⟩, ?_⟩
  intro kernel hk img quantise x y x2 y2 hc hx hxw hy hlt
  have hker : ∀ e ∈ kernel, entryAhead e := by
    rcases hk with h | h <;> subst h <;> decide
  exact pixelStore_dither_step kernel hker quantise img x y x2 y2 hc hx hxw hy hlt

/-- Witness for C2: a Floyd–Steinberg step at `(1, 0)` of a 2×2 image
leaves the already-written pixel `(0, 0)` untouched. -/
theorem dither_kernels_causal_witness :
    pixelStore
        (dither_step fs_kernel quantise_greyscale_1bit
          ⟨2, 2, 1, [⟨3, 5⟩, ⟨2, 5⟩, ⟨3, 5⟩, ⟨2, 5⟩]⟩ (1, 0)) 0 0
      = pixelStore ⟨2, 2, 1, [⟨3, 5⟩, ⟨2, 5⟩, ⟨3, 5⟩, ⟨2, 5⟩]⟩ 0 0 :=
  dither_kernels_causal.2 fs_kernel (Or.inl rfl) _ _ 0 0 1 0 (by decide) (by decide)
    (by decide) (by decide) (by decide)

/-! ## Pixel-level algebra for the flip involutions (C6) -/

/-- Full characterization of a raw store: the value lands iff the index is
the written one and inside the buffer. -/
theorem qlist_getD_set_full (l : List Q) (i n : Nat) (v : Q) :
    (l.set i v).getD n 0 = if i = n ∧ n < l.length then v else l.getD n 0 := by
  by_cases hin : i = n
  · subst hin
    by_cases hlen : i < l.length
    · simp [List.getD, List.getElem?_set_self, hlen]
    · rw [List.set_eq_of_length_le (by omega)]
      simp [hlen]
  · simp [List.getD, List.getElem?_set_ne hin, hin]

theorem qlist_ext (l l' : List Q) (hlen : l.length = l'.length)
    (h : ∀ n, n < l.length → l.getD n 0 = l'.getD n 0) : l = l' := by
  apply List.ext_getElem hlen
  intro n h1 h2
  have := h n h1
  rwa [List.getD_eq_getElem l 0 h1, List.getD_eq_getElem l' 0 h2] at this

/-- Two images agree when their metadata agree and their buffers agree
pointwise. -/
theorem image_ext (a b : Image) (hw : a.width = b.width) (hh : a.height = b.height)
    (hc : a.channels = b.channels) (hlen : a.buffer.length = b.buffer.length)
    (hbuf : ∀ n, n < a.buffer.length → a.buffer.getD n 0 = b.buffer.getD n 0) :
    a = b := by
  cases a
  cases b
  simp only at hw hh hc hlen hbuf
  subst hw
  subst hh
  subst hc
  rw [qlist_ext _ _ hlen hbuf]

/-- Pointwise characterization of an in-bounds `set_pixel`: sample `n`
becomes the written component when `n` is one of the (up to four) written
positions inside the buffer, and is untouched otherwise. -/
theorem buffer_set_pixel_getD_char (img : Image) (x y : Int) (v : Vec4) (n : Nat)
    (h : ¬img.oob x y) :
    (img.set_pixel x y v).buffer.getD n 0 =
      if img.channels = 4 ∧ (img.pixIndex x y).toNat + 3 = n ∧ n < img.buffer.length
        then v.a
      else if (img.pixIndex x y).toNat + 2 = n ∧ n < img.buffer.length then v.b
      else if (img.pixIndex x y).toNat + 1 = n ∧ n < img.buffer.length then v.g
      else if (img.pixIndex x y).toNat = n ∧ n < img.buffer.length then v.r
      else img.buffer.getD n 0 := by
  unfold Image.set_pixel Image.set_pixel_rgb
  rw [if_neg h, if_neg h]
  by_cases h4 : img.channels = 4
  · simp only [if_pos h4]
    rw [qlist_getD_set_full, qlist_getD_set_full, qlist_getD_set_full,
      qlist_getD_set_full]
    simp only [List.length_set]
    split_ifs <;> first | rfl | omega
  · simp only [if_neg h4]
    rw [qlist_getD_set_full, qlist_getD_set_full, qlist_getD_set_full]
    simp only [List.length_set]
    split_ifs <;> first | rfl | omega

theorem wellFormed_set_pixel (img : Image) (x y : Int) (v : Vec4) :
    wellFormed (img.set_pixel x y v) ↔ wellFormed img := by
  unfold wellFormed
  rw [length_set_pixel, width_set_pixel, height_set_pixel, channels_set_pixel]

/-- On a well-formed buffer with at least 3 channels, every raw store of an
in-bounds `set_pixel` lands inside the buffer. -/
theorem pixIndex_writes_lt (img : Image) (x y : Int) (h : ¬img.oob x y)
    (hc : 3 ≤ img.channels) (hwf : wellFormed img) :
    (img.pixIndex x y).toNat + 2 < img.buffer.length ∧
      (img.channels = 4 → (img.pixIndex x y).toNat + 3 < img.buffer.length) := by
  have hb : 0 ≤ x ∧ x < img.width ∧ 0 ≤ y ∧ y < img.height := by
    unfold Image.oob at h
    omega
  have h0 : 0 ≤ img.pixIndex x y := by
    unfold Image.pixIndex
    exact add_nonneg (mul_nonneg (mul_nonneg hb.2.2.1 (by omega)) (by omega))
      (mul_nonneg hb.1 (by omega))
  have hup : img.pixIndex x y + img.channels
      ≤ img.width * img.height * img.channels := by
    unfold Image.pixIndex
    have key : y * img.width + x + 1 ≤ img.width * img.height := by
      have h1 : (y + 1) * img.width ≤ img.height * img.width :=
        mul_le_mul_of_nonneg_right (by omega) (by omega)
      rw [add_mul, one_mul] at h1
      have h2 : img.height * img.width = img.width * img.height := mul_comm _ _
      have h3 : x + 1 ≤ img.width := by omega
      linarith
    calc (y * img.channels) * img.width + x * img.channels + img.channels
        = img.channels * (y * img.width + x + 1) := by ring
      _ ≤ img.channels * (img.width * img.height) :=
          mul_le_mul_of_nonneg_left key (by omega)
      _ = img.width * img.height * img.channels := by ring
  unfold wellFormed at hwf
  set P := img.pixIndex x y
  set T := img.width * img.height * img.channels
  omega

/-- Distinct in-bounds pixels are at least one full pixel apart in the
buffer, one way or the other. -/
theorem pixIndex_gap_of_ne (img : Image) (xa ya xb yb : Int)
    (hc : 1 ≤ img.channels) (ha : ¬img.oob xa ya) (hb : ¬img.oob xb yb)
    (hne : ¬(xa = xb ∧ ya = yb)) :
    img.pixIndex xa ya + img.channels ≤ img.pixIndex xb yb ∨
      img.pixIndex xb yb + img.channels ≤ img.pixIndex xa ya := by
  have hba : 0 ≤ xa ∧ xa < img.width ∧ 0 ≤ ya ∧ ya < img.height := by
    unfold Image.oob at ha
    omega
  have hbb : 0 ≤ xb ∧ xb < img.width ∧ 0 ≤ yb ∧ yb < img.height := by
    unfold Image.oob at hb
    omega
  rcases lt_trichotomy ya yb with h | h | h
  · exact Or.inl (pixIndex_gap img xa ya xb yb hc hba.1 hba.2.1 hba.2.2.1 hbb.1
      hbb.2.2.1 (Or.inl h))
  · rcases lt_trichotomy xa xb with h2 | h2 | h2
    · exact Or.inl (pixIndex_gap img xa ya xb yb hc hba.1 hba.2.1 hba.2.2.1 hbb.1
        hbb.2.2.1 (Or.inr ⟨h, h2⟩))
    · exact absurd ⟨h2, h⟩ hne
    · exact Or.inr (pixIndex_gap img xb yb xa ya hc hbb.1 hbb.2.1 hbb.2.2.1 hba.1
        hba.2.2.1 (Or.inr ⟨h.symm, h2⟩))
  · exact Or.inr (pixIndex_gap img xb yb xa ya hc hbb.1 hbb.2.1 hbb.2.2.1 hba.1
      hba.2.2.1 (Or.inl h))

theorem set_pixel_oob (img : Image) (x y : Int) (c : Vec4) (h : img.oob x y) :
    img.set_pixel x y c = img := by
  unfold Image.set_pixel
  rw [if_pos h]

theorem pixIndex_nonneg (img : Image) (x y : Int) (h : ¬img.oob x y)
    (hc : 0 ≤ img.channels) : 0 ≤ img.pixIndex x y := by
  have hb : 0 ≤ x ∧ 0 ≤ y ∧ 0 ≤ img.width := by
    unfold Image.oob at h
    omega
  unfold Image.pixIndex
  exact add_nonneg (mul_nonneg (mul_nonneg hb.2.1 hc) hb.2.2) (mul_nonneg hb.1 hc)

/-- Reading a pixel other than the one just written sees the old image
(with at least 3 channels the sample footprints of distinct pixels are
disjoint). -/
theorem get_pixel_rgba_set_pixel_ne (img : Image) (xa ya xb yb : Int) (u : Vec4)
    (hc : 3 ≤ img.channels) (hne : ¬(xa = xb ∧ ya = yb)) :
    (img.set_pixel xb yb u).get_pixel_rgba xa ya = img.get_pixel_rgba xa ya := by
  by_cases hob : img.oob xb yb
  · rw [set_pixel_oob _ _ _ _ hob]
  · by_cases hoa : img.oob xa ya
    · unfold Image.get_pixel_rgba
      rw [if_pos (by rwa [oob_set_pixel]), if_pos hoa]
    · have hgap := pixIndex_gap_of_ne img xa ya xb yb (by omega) hoa hob hne
      have h0a := pixIndex_nonneg img xa ya hoa (by omega)
      have h0b := pixIndex_nonneg img xb yb hob (by omega)
      unfold Image.get_pixel_rgba
      rw [if_neg (by rwa [oob_set_pixel]), if_neg hoa, pixIndex_set_pixel,
        channels_set_pixel]
      simp only [Vec4.mk.injEq]
      refine ⟨?_, ?_, ?_, ?_⟩
      · rw [buffer_set_pixel_getD_char img xb yb u _ hob]
        split_ifs <;> first | rfl | omega
      · rw [buffer_set_pixel_getD_char img xb yb u _ hob]
        split_ifs <;> first | rfl | omega
      · rw [buffer_set_pixel_getD_char img xb yb u _ hob]
        split_ifs <;> first | rfl | omega
      · by_cases h4 : img.channels = 4
        · simp only [if_pos h4]
          rw [buffer_set_pixel_getD_char img xb yb u _ hob]
          split_ifs <;> first | rfl | omega
        · simp only [if_neg h4]

/-- Reading back the pixel just written returns the written pixel value,
when that value itself came from an in-bounds `get_pixel_rgba` (so its
alpha convention matches) and the buffer is well-formed. -/
theorem get_pixel_rgba_set_readback (img : Image) (x y u w : Int)
    (hc : 3 ≤ img.channels) (hwf : wellFormed img)
    (hxy : ¬img.oob x y) (huw : ¬img.oob u w) :
    (img.set_pixel x y (img.get_pixel_rgba u w)).get_pixel_rgba x y
      = img.get_pixel_rgba u w := by
  have hwr := pixIndex_writes_lt img x y hxy hc hwf
  have h0 := pixIndex_nonneg img x y hxy (by omega)
  unfold Image.get_pixel_rgba
  rw [if_neg (by rwa [oob_set_pixel]), pixIndex_set_pixel, channels_set_pixel,
    if_neg huw]
  by_cases h4 : img.channels = 4
  · simp only [if_pos h4]
    rw [buffer_set_pixel_getD_char img x y _ _ hxy,
      buffer_set_pixel_getD_char img x y _ _ hxy,
      buffer_set_pixel_getD_char img x y _ _ hxy,
      buffer_set_pixel_getD_char img x y _ _ hxy]
    simp only [if_neg huw, if_pos h4, Vec4.mk.injEq]
    refine ⟨?_, ?_, ?_, ?_⟩ <;> split_ifs <;>
      first | rfl | omega | (simp only [true_and] at *; omega)
  · simp only [if_neg h4]
    rw [buffer_set_pixel_getD_char img x y _ _ hxy,
      buffer_set_pixel_getD_char img x y _ _ hxy,
      buffer_set_pixel_getD_char img x y _ _ hxy]
    simp only [if_neg huw, if_neg h4, Vec4.mk.injEq]
    refine ⟨?_, ?_, ?_, trivial⟩ <;> split_ifs <;>
      first | rfl | omega | (simp only [true_and] at *; omega)

/-- Two writes to the same pixel collapse to the second write. -/
theorem set_pixel_collapse (img : Image) (x y : Int) (u v : Vec4) :
    (img.set_pixel x y u).set_pixel x y v = img.set_pixel x y v := by
  by_cases h : img.oob x y
  · rw [set_pixel_oob _ _ _ _ h]
  · apply image_ext
    · rw [width_set_pixel, width_set_pixel, width_set_pixel]
    · rw [height_set_pixel, height_set_pixel, height_set_pixel]
    · rw [channels_set_pixel, channels_set_pixel, channels_set_pixel]
    · rw [length_set_pixel, length_set_pixel, length_set_pixel]
    · intro n hn
      rw [buffer_set_pixel_getD_char (img.set_pixel x y u) x y v n
          (by rwa [oob_set_pixel]),
        pixIndex_set_pixel, channels_set_pixel, length_set_pixel,
        buffer_set_pixel_getD_char img x y u n h,
        buffer_set_pixel_getD_char img x y v n h]
      split_ifs <;> first | rfl | omega | (simp only [true_and] at *; omega)

/-- Writes to distinct pixels commute (their sample footprints are
disjoint when the image has at least 3 channels). -/
theorem set_pixel_comm (img : Image) (xa ya xb yb : Int) (u v : Vec4)
    (hc : 3 ≤ img.channels) (hne : ¬(xa = xb ∧ ya = yb)) :
    (img.set_pixel xa ya u).set_pixel xb yb v
      = (img.set_pixel xb yb v).set_pixel xa ya u := by
  by_cases hoa : img.oob xa ya
  · rw [set_pixel_oob _ _ _ _ hoa,
      set_pixel_oob (img.set_pixel xb yb v) _ _ _ (by rwa [oob_set_pixel])]
  · by_cases hob : img.oob xb yb
    · rw [set_pixel_oob _ _ _ _ hob,
        set_pixel_oob (img.set_pixel xa ya u) _ _ _ (by rwa [oob_set_pixel])]
    · have hgap := pixIndex_gap_of_ne img xa ya xb yb (by omega) hoa hob hne
      have h0a := pixIndex_nonneg img xa ya hoa (by omega)
      have h0b := pixIndex_nonneg img xb yb hob (by omega)
      apply image_ext
      · rw [width_set_pixel, width_set_pixel, width_set_pixel, width_set_pixel]
      · rw [height_set_pixel, height_set_pixel, height_set_pixel,
          height_set_pixel]
      · rw [channels_set_pixel, channels_set_pixel, channels_set_pixel,
          channels_set_pixel]
      · rw [length_set_pixel, length_set_pixel, length_set_pixel,
          length_set_pixel]
      · intro n hn
        rw [buffer_set_pixel_getD_char (img.set_pixel xa ya u) xb yb v n
            (by rwa [oob_set_pixel]),
          pixIndex_set_pixel, channels_set_pixel, length_set_pixel,
          buffer_set_pixel_getD_char img xa ya u n hoa,
          buffer_set_pixel_getD_char (img.set_pixel xb yb v) xa ya u n
            (by rwa [oob_set_pixel]),
          pixIndex_set_pixel, channels_set_pixel, length_set_pixel,
          buffer_set_pixel_getD_char img xb yb v n hob]
        split_ifs <;> first | rfl | omega | (simp only [true_and] at *; omega)

/-- Pulling one application of `f` out of a fold, when it commutes (under
invariant `p`) with every step of the fold. -/
theorem foldl_swap_out {α σ : Type _} (f : σ → α → σ) (p : σ → Prop) (a : α) :
    ∀ (l : List α) (x : σ), p x →
      (∀ t b, b ∈ l → p t → p (f t b)) →
      (∀ t b, b ∈ l → p t → f (f t b) a = f (f t a) b) →
      f (l.foldl f x) a = l.foldl f (f x a)
  | [], _, _, _, _ => rfl
  | b :: t, x, hx, hpres, hcomm => by
    show f (t.foldl f (f x b)) a = _
    rw [foldl_swap_out f p a t (f x b) (hpres x b (List.mem_cons_self b t) hx)
        (fun t' b' hb' => hpres t' b' (List.mem_cons_of_mem b hb'))
        (fun t' b' hb' => hcomm t' b' (List.mem_cons_of_mem b hb')),
      hcomm x b (List.mem_cons_self b t) hx]
    rfl

/-- A fold of pairwise-commuting, self-inverse steps over a duplicate-free
list is an involution. -/
theorem foldl_cancel {α σ : Type _} (f : σ → α → σ) (p : σ → Prop) :
    ∀ (l : List α) (s : σ),
      (∀ t b, b ∈ l → p t → p (f t b)) →
      (∀ t b, b ∈ l → p t → f (f t b) b = t) →
      (∀ t b c, b ∈ l → c ∈ l → b ≠ c → p t → f (f t b) c = f (f t c) b) →
      l.Nodup → p s → l.foldl f (l.foldl f s) = s
  | [], _, _, _, _, _, _ => rfl
  | a :: t, s, hpres, hinv, hcomm, hnd, hs => by
    have hna : a ∉ t := (List.nodup_cons.mp hnd).1
    have hndt : t.Nodup := (List.nodup_cons.mp hnd).2
    have hpa : p (f s a) := hpres s a (List.mem_cons_self a t) hs
    have hswap : f (t.foldl f (f s a)) a = t.foldl f (f (f s a) a) :=
      foldl_swap_out f p a t (f s a) hpa
        (fun t' b hb => hpres t' b (List.mem_cons_of_mem a hb))
        (fun t' b hb hpt =>
          hcomm t' b a (List.mem_cons_of_mem a hb) (List.mem_cons_self a t)
            (fun hba => hna (hba ▸ hb)) hpt)
    show t.foldl f (f (t.foldl f (f s a)) a) = s
    rw [hswap, hinv s a (List.mem_cons_self a t) hs]
    exact foldl_cancel f p t s
      (fun t' b hb => hpres t' b (List.mem_cons_of_mem a hb))
      (fun t' b hb => hinv t' b (List.mem_cons_of_mem a hb))
      (fun t' b c hb hcm =>
        hcomm t' b c (List.mem_cons_of_mem a hb) (List.mem_cons_of_mem a hcm))
      hndt hs

/-- Bounds carried by membership in a loop-coordinate grid. -/
theorem grid_mem {m k : Nat} {pr : Int × Int}
    (h : pr ∈ (List.range m).flatMap fun (i : Nat) =>
      (List.range k).map fun (j : Nat) => ((i : Int), (j : Int))) :
    0 ≤ pr.1 ∧ pr.1 < (m : Int) ∧ 0 ≤ pr.2 ∧ pr.2 < (k : Int) := by
  simp only [List.mem_flatMap, List.mem_map, List.mem_range] at h
  obtain ⟨i, hi, j, hj, rfl⟩ := h
  exact ⟨by omega, by omega, by omega, by omega⟩

/-- The loop-coordinate grid has no duplicates. -/
theorem grid_nodup (m k : Nat) :
    ((List.range m).flatMap fun (i : Nat) =>
      (List.range k).map fun (j : Nat) => ((i : Int), (j : Int))).Nodup := by
  induction m with
  | zero => simp
  | succ m ih =>
    rw [List.range_succ, List.flatMap_append]
    apply List.Nodup.append ih
    · simp only [List.flatMap_cons, List.flatMap_nil, List.append_nil]
      apply List.Nodup.map _ (List.nodup_range k)
      intro j1 j2 hj
      simpa using hj
    · intro pr hpr hpr2
      have h1 := grid_mem hpr
      simp only [List.flatMap_cons, List.flatMap_nil, List.append_nil,
        List.mem_map, List.mem_range] at hpr2
      obtain ⟨j, hj, rfl⟩ := hpr2
      simp at h1

theorem get_pixel_rgba_alpha_one (img : Image) (x y : Int) (h : ¬img.oob x y)
    (h4 : img.channels ≠ 4) : (img.get_pixel_rgba x y).a = 1 := by
  unfold Image.get_pixel_rgba
  rw [if_neg h]
  simp [if_neg h4]

/-- Reading back any written pixel value whose alpha respects the
non-4-channel convention returns that value. -/
theorem get_pixel_rgba_set_value (img : Image) (x y : Int) (v : Vec4)
    (hc : 3 ≤ img.channels) (hwf : wellFormed img) (hxy : ¬img.oob x y)
    (hva : img.channels ≠ 4 → v.a = 1) :
    (img.set_pixel x y v).get_pixel_rgba x y = v := by
  obtain ⟨vr, vg, vb, va⟩ := v
  have hwr := pixIndex_writes_lt img x y hxy hc hwf
  have h0 := pixIndex_nonneg img x y hxy (by omega)
  unfold Image.get_pixel_rgba
  rw [if_neg (by rwa [oob_set_pixel]), pixIndex_set_pixel, channels_set_pixel]
  by_cases h4 : img.channels = 4
  · simp only [if_pos h4]
    rw [buffer_set_pixel_getD_char img x y _ _ hxy,
      buffer_set_pixel_getD_char img x y _ _ hxy,
      buffer_set_pixel_getD_char img x y _ _ hxy,
      buffer_set_pixel_getD_char img x y _ _ hxy]
    simp only [Vec4.mk.injEq]
    refine ⟨?_, ?_, ?_, ?_⟩ <;> split_ifs <;>
      first | rfl | omega | (simp only [true_and] at *; omega)
  · simp only [if_neg h4]
    rw [buffer_set_pixel_getD_char img x y _ _ hxy,
      buffer_set_pixel_getD_char img x y _ _ hxy,
      buffer_set_pixel_getD_char img x y _ _ hxy]
    simp only [Vec4.mk.injEq]
    refine ⟨?_, ?_, ?_, (hva h4).symm⟩ <;> split_ifs <;>
      first | rfl | omega | (simp only [true_and] at *; omega)

/-- Swapping the contents of two distinct in-bounds pixels twice restores
the image. -/
theorem swap_swap (im : Image) (xa ya xb yb : Int)
    (hc : 3 ≤ im.channels) (hwf : wellFormed im)
    (ha : ¬im.oob xa ya) (hb : ¬im.oob xb yb)
    (hne : ¬(xa = xb ∧ ya = yb)) :
    (((im.set_pixel xa ya (im.get_pixel_rgba xb yb)).set_pixel xb yb
          (im.get_pixel_rgba xa ya)).set_pixel xa ya
        (((im.set_pixel xa ya (im.get_pixel_rgba xb yb)).set_pixel xb yb
            (im.get_pixel_rgba xa ya)).get_pixel_rgba xb yb)).set_pixel xb yb
      (((im.set_pixel xa ya (im.get_pixel_rgba xb yb)).set_pixel xb yb
          (im.get_pixel_rgba xa ya)).get_pixel_rgba xa ya) = im := by
  have hneBA : ¬(xb = xa ∧ yb = ya) := fun h => hne ⟨h.1.symm, h.2.symm⟩
  have e2 : ((im.set_pixel xa ya (im.get_pixel_rgba xb yb)).set_pixel xb yb
      (im.get_pixel_rgba xa ya)).get_pixel_rgba xb yb
      = im.get_pixel_rgba xa ya := by
    apply get_pixel_rgba_set_value
    · rw [channels_set_pixel]
      exact hc
    · rw [wellFormed_set_pixel]
      exact hwf
    · rw [oob_set_pixel]
      exact hb
    · intro h4
      rw [channels_set_pixel] at h4
      exact get_pixel_rgba_alpha_one im xa ya ha h4
  have e1 : ((im.set_pixel xa ya (im.get_pixel_rgba xb yb)).set_pixel xb yb
      (im.get_pixel_rgba xa ya)).get_pixel_rgba xa ya
      = im.get_pixel_rgba xb yb := by
    rw [get_pixel_rgba_set_pixel_ne _ xa ya xb yb _
      (by rw [channels_set_pixel]; exact hc) hne]
    exact get_pixel_rgba_set_value im xa ya _ hc hwf ha
      fun h4 => get_pixel_rgba_alpha_one im xb yb hb h4
  rw [e1, e2]
  rw [set_pixel_comm (im.set_pixel xa ya (im.get_pixel_rgba xb yb)) xb yb xa ya
    (im.get_pixel_rgba xa ya) (im.get_pixel_rgba xa ya)
    (by rw [channels_set_pixel]; exact hc) hneBA]
  rw [set_pixel_collapse im xa ya]
  rw [set_pixel_get_self im xa ya]
  rw [set_pixel_collapse im xb yb]
  exact set_pixel_get_self im xb yb

/-- Swaps of two disjoint pixel pairs commute. -/
theorem swap_comm (im : Image) (xa ya xb yb xc yc xd yd : Int)
    (hc : 3 ≤ im.channels)
    (hca : ¬(xc = xa ∧ yc = ya)) (hcb : ¬(xc = xb ∧ yc = yb))
    (hda : ¬(xd = xa ∧ yd = ya)) (hdb : ¬(xd = xb ∧ yd = yb)) :
    (((im.set_pixel xa ya (im.get_pixel_rgba xb yb)).set_pixel xb yb
          (im.get_pixel_rgba xa ya)).set_pixel xc yc
        (((im.set_pixel xa ya (im.get_pixel_rgba xb yb)).set_pixel xb yb
            (im.get_pixel_rgba xa ya)).get_pixel_rgba xd yd)).set_pixel xd yd
      (((im.set_pixel xa ya (im.get_pixel_rgba xb yb)).set_pixel xb yb
          (im.get_pixel_rgba xa ya)).get_pixel_rgba xc yc)
    = (((im.set_pixel xc yc (im.get_pixel_rgba xd yd)).set_pixel xd yd
          (im.get_pixel_rgba xc yc)).set_pixel xa ya
        (((im.set_pixel xc yc (im.get_pixel_rgba xd yd)).set_pixel xd yd
            (im.get_pixel_rgba xc yc)).get_pixel_rgba xb yb)).set_pixel xb yb
      (((im.set_pixel xc yc (im.get_pixel_rgba xd yd)).set_pixel xd yd
          (im.get_pixel_rgba xc yc)).get_pixel_rgba xa ya) := by
  have hac : ¬(xa = xc ∧ ya = yc) := fun h => hca ⟨h.1.symm, h.2.symm⟩
  have hbc : ¬(xb = xc ∧ yb = yc) := fun h => hcb ⟨h.1.symm, h.2.symm⟩
  have had : ¬(xa = xd ∧ ya = yd) := fun h => hda ⟨h.1.symm, h.2.symm⟩
  have hbd : ¬(xb = xd ∧ yb = yd) := fun h => hdb ⟨h.1.symm, h.2.symm⟩
  have hc1 : 3 ≤ (im.set_pixel xa ya (im.get_pixel_rgba xb yb)).channels := by
    rw [channels_set_pixel]
    exact hc
  have hc1cd : 3 ≤ (im.set_pixel xc yc (im.get_pixel_rgba xd yd)).channels := by
    rw [channels_set_pixel]
    exact hc
  rw [get_pixel_rgba_set_pixel_ne _ xd yd xb yb _ hc1 hdb,
    get_pixel_rgba_set_pixel_ne im xd yd xa ya _ hc hda,
    get_pixel_rgba_set_pixel_ne _ xc yc xb yb _ hc1 hcb,
    get_pixel_rgba_set_pixel_ne im xc yc xa ya _ hc hca,
    get_pixel_rgba_set_pixel_ne _ xb yb xd yd _ hc1cd hbd,
    get_pixel_rgba_set_pixel_ne im xb yb xc yc _ hc hbc,
    get_pixel_rgba_set_pixel_ne _ xa ya xd yd _ hc1cd had,
    get_pixel_rgba_set_pixel_ne im xa ya xc yc _ hc hac]
  rw [set_pixel_comm (im.set_pixel xa ya (im.get_pixel_rgba xb yb)) xb yb xc yc
    (im.get_pixel_rgba xa ya) (im.get_pixel_rgba xd yd) hc1 hbc]
  rw [set_pixel_comm im xa ya xc yc (im.get_pixel_rgba xb yb)
    (im.get_pixel_rgba xd yd) hc hac]
  rw [set_pixel_comm ((im.set_pixel xc yc (im.get_pixel_rgba xd yd)).set_pixel
      xa ya (im.get_pixel_rgba xb yb)) xb yb xd yd (im.get_pixel_rgba xa ya)
    (im.get_pixel_rgba xc yc)
    (by rw [channels_set_pixel, channels_set_pixel]; exact hc) hbd]
  rw [set_pixel_comm (im.set_pixel xc yc (im.get_pixel_rgba xd yd)) xa ya xd yd
    (im.get_pixel_rgba xb yb) (im.get_pixel_rgba xc yc) hc1cd had]

/-- `fliph` twice is the identity on well-formed buffers with at least 3
channels. -/
theorem fliph_fliph (img : Image) (hc : 3 ≤ img.channels) (hwf : wellFormed img) :
    img.fliph.fliph = img := by
  unfold Image.fliph
  have hmeta := foldl_pred_invariant
    (fun im ij =>
      let i := ij.1
      let j := ij.2
      let a := im.get_pixel_rgba j i
      let b := im.get_pixel_rgba (im.width - 1 - j) i
      let im1 := im.set_pixel j i b
      im1.set_pixel (im1.width - 1 - j) i a)
    (fun t => t.width = img.width ∧ t.height = img.height ∧
      t.channels = img.channels ∧ t.buffer.length = img.buffer.length)
    ((List.range img.height.toNat).flatMap fun (i : Nat) =>
      (List.range (img.width / 2).toNat).map fun (j : Nat) => ((i : Int), (j : Int)))
    img
    (fun t a ht =>
      ⟨by simp only [width_set_pixel]; exact ht.1,
       by simp only [height_set_pixel]; exact ht.2.1,
       by simp only [channels_set_pixel]; exact ht.2.2.1,
       by simp only [length_set_pixel]; exact ht.2.2.2⟩)
    ⟨rfl, rfl, rfl, rfl⟩
  rw [hmeta.1, hmeta.2.1]
  refine foldl_cancel
    (fun im ij =>
      let i := ij.1
      let j := ij.2
      let a := im.get_pixel_rgba j i
      let b := im.get_pixel_rgba (im.width - 1 - j) i
      let im1 := im.set_pixel j i b
      im1.set_pixel (im1.width - 1 - j) i a)
    (fun t => t.width = img.width ∧ t.height = img.height ∧
      t.channels = img.channels ∧ t.buffer.length = img.buffer.length)
    ((List.range img.height.toNat).flatMap fun (i : Nat) =>
      (List.range (img.width / 2).toNat).map fun (j : Nat) => ((i : Int), (j : Int)))
    img
    ?hpres
    ?hinv ?hcomm
    (grid_nodup img.height.toNat (img.width / 2).toNat)
    ⟨rfl, rfl, rfl, rfl⟩
  case hpres =>
    intro t a hmem ht
    exact ⟨by simp only [width_set_pixel]; exact ht.1,
      by simp only [height_set_pixel]; exact ht.2.1,
      by simp only [channels_set_pixel]; exact ht.2.2.1,
      by simp only [length_set_pixel]; exact ht.2.2.2⟩
  case hinv =>
    intro t pr hpr hpt
    obtain ⟨hb1, hb2, hb3, hb4⟩ := grid_mem hpr
    simp only [width_set_pixel]
    rw [hpt.1]
    apply swap_swap t pr.2 pr.1 (img.width - 1 - pr.2) pr.1
    · rw [hpt.2.2.1]
      exact hc
    · unfold wellFormed
      rw [hpt.1, hpt.2.1, hpt.2.2.1, hpt.2.2.2]
      exact hwf
    · unfold Image.oob
      rw [hpt.1, hpt.2.1]
      omega
    · unfold Image.oob
      rw [hpt.1, hpt.2.1]
      omega
    · rintro ⟨h1, -⟩
      omega
  case hcomm =>
    intro t pr qr hpr hqr hpq hpt
    obtain ⟨hb1, hb2, hb3, hb4⟩ := grid_mem hpr
    obtain ⟨hc1, hc2, hc3, hc4⟩ := grid_mem hqr
    have hpq' : ¬(pr.1 = qr.1 ∧ pr.2 = qr.2) := by
      rintro ⟨h1, h2⟩
      exact hpq (Prod.ext h1 h2)
    simp only [width_set_pixel]
    rw [hpt.1]
    apply swap_comm t pr.2 pr.1 (img.width - 1 - pr.2) pr.1 qr.2 qr.1
      (img.width - 1 - qr.2) qr.1
    · rw [hpt.2.2.1]
      exact hc
    · rintro ⟨h1, h2⟩
      exact hpq' ⟨h2.symm, h1.symm⟩
    · rintro ⟨h1, h2⟩
      omega
    · rintro ⟨h1, h2⟩
      omega
    · rintro ⟨h1, h2⟩
      omega

/-- `flipv` twice is the identity on well-formed buffers with at least 3
channels. -/
theorem flipv_flipv (img : Image) (hc : 3 ≤ img.channels) (hwf : wellFormed img) :
    img.flipv.flipv = img := by
  unfold Image.flipv
  have hmeta := foldl_pred_invariant
    (fun im ij =>
      let i := ij.1
      let j := ij.2
      let a := im.get_pixel_rgba j i
      let b := im.get_pixel_rgba j (im.height - 1 - i)
      let im1 := im.set_pixel j i b
      im1.set_pixel j (im1.height - 1 - i) a)
    (fun t => t.width = img.width ∧ t.height = img.height ∧
      t.channels = img.channels ∧ t.buffer.length = img.buffer.length)
    ((List.range (img.height / 2).toNat).flatMap fun (i : Nat) =>
      (List.range img.width.toNat).map fun (j : Nat) => ((i : Int), (j : Int)))
    img
    (fun t a ht =>
      ⟨by simp only [width_set_pixel]; exact ht.1,
       by simp only [height_set_pixel]; exact ht.2.1,
       by simp only [channels_set_pixel]; exact ht.2.2.1,
       by simp only [length_set_pixel]; exact ht.2.2.2⟩)
    ⟨rfl, rfl, rfl, rfl⟩
  rw [hmeta.1, hmeta.2.1]
  refine foldl_cancel
    (fun im ij =>
      let i := ij.1
      let j := ij.2
      let a := im.get_pixel_rgba j i
      let b := im.get_pixel_rgba j (im.height - 1 - i)
      let im1 := im.set_pixel j i b
      im1.set_pixel j (im1.height - 1 - i) a)
    (fun t => t.width = img.width ∧ t.height = img.height ∧
      t.channels = img.channels ∧ t.buffer.length = img.buffer.length)
    ((List.range (img.height / 2).toNat).flatMap fun (i : Nat) =>
      (List.range img.width.toNat).map fun (j : Nat) => ((i : Int), (j : Int)))
    img
    ?hpres
    ?hinv ?hcomm
    (grid_nodup (img.height / 2).toNat img.width.toNat)
    ⟨rfl, rfl, rfl, rfl⟩
  case hpres =>
    intro t a hmem ht
    exact ⟨by simp only [width_set_pixel]; exact ht.1,
      by simp only [height_set_pixel]; exact ht.2.1,
      by simp only [channels_set_pixel]; exact ht.2.2.1,
      by simp only [length_set_pixel]; exact ht.2.2.2⟩
  case hinv =>
    intro t pr hpr hpt
    obtain ⟨hb1, hb2, hb3, hb4⟩ := grid_mem hpr
    simp only [height_set_pixel]
    rw [hpt.2.1]
    apply swap_swap t pr.2 pr.1 pr.2 (img.height - 1 - pr.1)
    · rw [hpt.2.2.1]
      exact hc
    · unfold wellFormed
      rw [hpt.1, hpt.2.1, hpt.2.2.1, hpt.2.2.2]
      exact hwf
    · unfold Image.oob
      rw [hpt.1, hpt.2.1]
      omega
    · unfold Image.oob
      rw [hpt.1, hpt.2.1]
      omega
    · rintro ⟨-, h2⟩
      omega
  case hcomm =>
    intro t pr qr hpr hqr hpq hpt
    obtain ⟨hb1, hb2, hb3, hb4⟩ := grid_mem hpr
    obtain ⟨hc1, hc2, hc3, hc4⟩ := grid_mem hqr
    have hpq' : ¬(pr.1 = qr.1 ∧ pr.2 = qr.2) := by
      rintro ⟨h1, h2⟩
      exact hpq (Prod.ext h1 h2)
    simp only [height_set_pixel]
    rw [hpt.2.1]
    apply swap_comm t pr.2 pr.1 pr.2 (img.height - 1 - pr.1) qr.2 qr.1 qr.2
      (img.height - 1 - qr.1)
    · rw [hpt.2.2.1]
      exact hc
    · rintro ⟨h1, h2⟩
      exact hpq' ⟨h2.symm, h1.symm⟩
    · rintro ⟨h1, h2⟩
      omega
    · rintro ⟨h1, h2⟩
      omega
    · rintro ⟨h1, h2⟩
      omega

/-- C6, counterexample: the claim asserts `flipv∘flipv = id` and
`fliph∘fliph = id` for any buffer.  It fails for 1-channel buffers (which
the data model admits): the accessors read and write three raw samples per
pixel, overlapping adjacent pixels and running past the allocation at the
row tail (undefined behaviour in C++, totalized here by the buffer's own
boundary convention).  On the well-formed 3×1 single-channel buffer
`[10, 20, 30]` a double horizontal flip yields `[10, 0, 30]`, and on its
1×3 transpose a double vertical flip does the same. -/
theorem flip_involution_fails_one_channel :
    Image.fliph (Image.fliph ⟨3, 1, 1, [⟨10, 1⟩, ⟨20, 1⟩, ⟨30, 1⟩]⟩)
        ≠ ⟨3, 1, 1, [⟨10, 1⟩, ⟨20, 1⟩, ⟨30, 1⟩]⟩ ∧
      Image.flipv (Image.flipv ⟨1, 3, 1, [⟨10, 1⟩, ⟨20, 1⟩, ⟨30, 1⟩]⟩)
        ≠ ⟨1, 3, 1, [⟨10, 1⟩, ⟨20, 1⟩, ⟨30, 1⟩]⟩ := by decide

/-- C6, amended: for every well-formed buffer with at least 3 channels
(RGB or RGBA, where the accessors touch only the pixel's own samples),
`flipv(flipv(B)) = B` and `fliph(fliph(B)) = B`, including buffers with odd
width or height (the middle row/column is untouched by a single flip). -/
theorem flip_involution_three_channels (img : Image) (hc : 3 ≤ img.channels)
    (hwf : wellFormed img) :
    img.flipv.flipv = img ∧ img.fliph.fliph = img :=
  ⟨flipv_flipv img hc hwf, fliph_fliph img hc hwf⟩

/-- Witness for the amended C6 on a 3×3 RGB image (odd width and height). -/
theorem flip_involution_three_channels_witness :
    Image.flipv (Image.flipv ⟨3, 3, 3, [⟨1, 2⟩, ⟨1, 3⟩, ⟨1, 4⟩, ⟨1, 5⟩, ⟨1, 6⟩,
        ⟨1, 7⟩, ⟨2, 3⟩, ⟨2, 5⟩, ⟨2, 7⟩, ⟨3, 4⟩, ⟨3, 5⟩, ⟨3, 7⟩, ⟨4, 5⟩, ⟨4, 7⟩,
        ⟨5, 6⟩, ⟨5, 7⟩, ⟨5, 8⟩, ⟨6, 7⟩, ⟨0, 1⟩, ⟨1, 1⟩, ⟨1, 8⟩, ⟨2, 9⟩, ⟨3, 8⟩,
        ⟨4, 9⟩, ⟨5, 9⟩, ⟨7, 8⟩, ⟨7, 9⟩]⟩)
      = ⟨3, 3, 3, [⟨1, 2⟩, ⟨1, 3⟩, ⟨1, 4⟩, ⟨1, 5⟩, ⟨1, 6⟩,
        ⟨1, 7⟩, ⟨2, 3⟩, ⟨2, 5⟩, ⟨2, 7⟩, ⟨3, 4⟩, ⟨3, 5⟩, ⟨3, 7⟩, ⟨4, 5⟩, ⟨4, 7⟩,
        ⟨5, 6⟩, ⟨5, 7⟩, ⟨5, 8⟩, ⟨6, 7⟩, ⟨0, 1⟩, ⟨1, 1⟩, ⟨1, 8⟩, ⟨2, 9⟩, ⟨3, 8⟩,
        ⟨4, 9⟩, ⟨5, 9⟩, ⟨7, 8⟩, ⟨7, 9⟩]⟩ ∧
      Image.fliph (Image.fliph ⟨3, 3, 3, [⟨1, 2⟩, ⟨1, 3⟩, ⟨1, 4⟩, ⟨1, 5⟩, ⟨1, 6⟩,
        ⟨1, 7⟩, ⟨2, 3⟩, ⟨2, 5⟩, ⟨2, 7⟩, ⟨3, 4⟩, ⟨3, 5⟩, ⟨3, 7⟩, ⟨4, 5⟩, ⟨4, 7⟩,
        ⟨5, 6⟩, ⟨5, 7⟩, ⟨5, 8⟩, ⟨6, 7⟩, ⟨0, 1⟩, ⟨1, 1⟩, ⟨1, 8⟩, ⟨2, 9⟩, ⟨3, 8⟩,
        ⟨4, 9⟩, ⟨5, 9⟩, ⟨7, 8⟩, ⟨7, 9⟩]⟩)
      = ⟨3, 3, 3, [⟨1, 2⟩, ⟨1, 3⟩, ⟨1, 4⟩, ⟨1, 5⟩, ⟨1, 6⟩,
        ⟨1, 7⟩, ⟨2, 3⟩, ⟨2, 5⟩, ⟨2, 7⟩, ⟨3, 4⟩, ⟨3, 5⟩, ⟨3, 7⟩, ⟨4, 5⟩, ⟨4, 7⟩,
        ⟨5, 6⟩, ⟨5, 7⟩, ⟨5, 8⟩, ⟨6, 7⟩, ⟨0, 1⟩, ⟨1, 1⟩, ⟨1, 8⟩, ⟨2, 9⟩, ⟨3, 8⟩,
        ⟨4, 9⟩, ⟨5, 9⟩, ⟨7, 8⟩, ⟨7, 9⟩]⟩ :=
  flip_involution_three_channels _ (by decide) rfl
